import Mathlib

/-!
Shallow embedding of `src/python/ray/experimental/data/impl/arrow_block.py`:
the Arrow block builder (`ArrowBlockBuilder`), the representation-delegating
builder (`DelegatingArrowBlockBuilder`), the lazy row view (`ArrowRow`) and
the accessor's `iter_rows`/`slice` operations, together with a model of the
pyarrow boundary calls the module uses (`Table.from_pydict`,
`concat_tables`, `Table.slice`, `Table.num_rows`).

Python machine-level details are modelled as follows: scalar cell values are
an inductive `Val` with a constructor for values the external Arrow library
cannot convert (so that `pyarrow.Table.from_pydict` can fail the way the
delegating builder's trial expects); Python dicts appearing as rows are
association lists in insertion order; raising an exception is returning
`Except.error` carrying the exception class.
-/

deriving instance DecidableEq for Except

namespace ArrowBlock

/-- A scalar cell value. `unsupported` stands for a Python object that the
external Arrow library rejects when building a column (pyarrow raises
`ArrowInvalid`/`ArrowTypeError` for such values). -/
inductive Val where
  | int : Int → Val
  | str : String → Val
  | unsupported : Nat → Val
deriving DecidableEq

/-- Whether the external Arrow library can convert this value. -/
def Val.supported : Val → Bool
  | .unsupported _ => false
  | _ => true

/-- A Python dict used as a row: an association list in insertion order. -/
abbrev Row := List (String × Val)

/-- The Python exception classes this module raises or catches. -/
inductive PyErr where
  | valueError
  | typeError
  | arrowInvalid
deriving DecidableEq

/-- A `pyarrow.Table`: named columns in schema order, each a list of cells. -/
structure Table where
  cols : List (String × List Val)
deriving DecidableEq

/-- `pyarrow.Table.num_rows`: the common column length (0 for no columns). -/
def Table.num_rows (t : Table) : Nat :=
  match t.cols with
  | [] => 0
  | (_, v) :: _ => v.length

/-- Column names of the table, in schema order. -/
def Table.names (t : Table) : List String :=
  t.cols.map Prod.fst

/-- Well-formedness of a table: all columns have the common length. -/
def Table.wf (t : Table) : Bool :=
  t.cols.all (fun c => c.2.length == t.num_rows)

/-- `pyarrow.Table.from_pydict`: build a table from named columns; fails
with an Arrow error if some cell cannot be converted or the columns have
unequal lengths. -/
def Table.from_pydict (cols : List (String × List Val)) : Except PyErr Table :=
  if cols.all (fun c => c.2.all Val.supported) then
    match cols with
    | [] => .ok ⟨[]⟩
    | (k, v) :: rest =>
      if rest.all (fun c => c.2.length == v.length) then .ok ⟨(k, v) :: rest⟩
      else .error .arrowInvalid
  else .error .arrowInvalid

/-- Concatenation of two tables with identical schemas (column-wise append);
fails with an Arrow error when the schemas differ. -/
def concat2 (a b : Table) : Except PyErr Table :=
  if a.names = b.names then
    .ok ⟨List.zipWith (fun c d => (c.1, c.2 ++ d.2)) a.cols b.cols⟩
  else .error .arrowInvalid

/-- `pyarrow.concat_tables`: fold pairwise concatenation over the list. -/
def concat_tables : List Table → Except PyErr Table
  | [] => .error .arrowInvalid
  | t :: ts => ts.foldlM concat2 t

/-- `pyarrow.Table.slice(start, length)`: the given window of every column. -/
def Table.slice (t : Table) (start len : Nat) : Table :=
  ⟨t.cols.map (fun c => (c.1, (c.2.drop start).take len))⟩

/-- `ArrowRow`: a lazy row view wrapping a one-row table slice. -/
structure ArrowRow where
  row : Table
deriving DecidableEq

/-- `ArrowRow.as_pydict`: `{k: v[0] for k, v in self._row.to_pydict().items()}`.
The `v[0]` access presumes each column of the slice is non-empty; the model
returns a default cell for an empty column. -/
def ArrowRow.as_pydict (r : ArrowRow) : Row :=
  r.row.cols.map (fun c => (c.1, c.2.headD (Val.int 0)))

/-- An argument passed to a builder's `add`: a Python dict, an `ArrowRow`
view, or some other (non-mapping) object identified by a tag. -/
inductive Item where
  | dict : Row → Item
  | arrowRow : ArrowRow → Item
  | other : Nat → Item
deriving DecidableEq

/-- `isinstance(item, dict)`. -/
def Item.isDict : Item → Bool
  | .dict _ => true
  | _ => false

/-- Append `v` to column `k`, creating the column at the end on first
occurrence (the `defaultdict(list)` behaviour of `self._columns[key].append`). -/
def appendCol : List (String × List Val) → String → Val → List (String × List Val)
  | [], k, v => [(k, [v])]
  | (k', vs) :: rest, k, v =>
    if k' = k then (k', vs ++ [v]) :: rest else (k', vs) :: appendCol rest k v

/-- The column update performed by one `ArrowBlockBuilder.add` of a dict:
append each of the row's values to its column, in the row's key order. -/
def addRowCols (cols : List (String × List Val)) (r : Row) : List (String × List Val) :=
  r.foldl (fun c kv => appendCol c kv.1 kv.2) cols

/-- The mutable state of an `ArrowBlockBuilder`: pending per-row columns,
merged sub-tables, and the running row counter `_num_rows`. -/
structure ArrowBlockBuilder where
  columns : List (String × List Val)
  tables : List Table
  num_rows : Nat
deriving DecidableEq

/-- `ArrowBlockBuilder.__init__`. -/
def ArrowBlockBuilder.empty : ArrowBlockBuilder :=
  ⟨[], [], 0⟩

/-- `ArrowBlockBuilder.add`: an `ArrowRow` is first expanded via
`as_pydict`; a non-dict raises `ValueError` (before any state mutation);
a dict appends its values to the pending columns and bumps `_num_rows`. -/
def ArrowBlockBuilder.add (b : ArrowBlockBuilder) : Item → Except PyErr ArrowBlockBuilder
  | .dict r =>
    .ok { b with columns := addRowCols b.columns r, num_rows := b.num_rows + 1 }
  | .arrowRow ar =>
    .ok { b with columns := addRowCols b.columns ar.as_pydict, num_rows := b.num_rows + 1 }
  | .other _ => .error .valueError

/-- `ArrowBlockBuilder.add_block`: store the table opaquely at the end of
`_tables` and add its row count to `_num_rows`. -/
def ArrowBlockBuilder.add_block (b : ArrowBlockBuilder) (t : Table) : ArrowBlockBuilder :=
  { b with tables := b.tables ++ [t], num_rows := b.num_rows + t.num_rows }

/-- `ArrowBlockBuilder.build`: materialize the pending columns (if any) via
`from_pydict`, place that table before every merged sub-table, then return
the single table directly, concatenate when there are several, or return an
empty table when there are none. -/
def ArrowBlockBuilder.build (b : ArrowBlockBuilder) : Except PyErr Table := do
  let ts ←
    if b.columns.isEmpty then pure ([] : List Table)
    else do
      let t ← Table.from_pydict b.columns
      pure [t]
  let ts := ts ++ b.tables
  match ts with
  | [] => .ok ⟨[]⟩
  | [t] => .ok t
  | _ => concat_tables ts

/-- A built block: either an Arrow table or a simple list of row objects. -/
inductive Block where
  | arrow : Table → Block
  | simple : List Item → Block
deriving DecidableEq

/-- The exception classes caught by the delegating builder's trial:
`except (TypeError, pyarrow.lib.ArrowInvalid)`. -/
def caught (e : PyErr) : Bool :=
  e = .typeError || e = .arrowInvalid

/-- The trial construction on the first dict item: a throwaway
`ArrowBlockBuilder` receives the item and is built, purely for validation. -/
def trialBuild (r : Row) : Except PyErr Table :=
  ArrowBlockBuilder.empty.add (.dict r) >>= ArrowBlockBuilder.build

/-- The state of a `DelegatingArrowBlockBuilder`: `_builder` is `None`, an
`ArrowBlockBuilder`, or a `SimpleBlockBuilder`. The simple builder is not in
the examined sources; modelled from the spec (§4.1): its state is the list
of items added so far, `add` appends verbatim with no validation. -/
inductive DelegatingArrowBlockBuilder where
  | undecided : DelegatingArrowBlockBuilder
  | arrow : ArrowBlockBuilder → DelegatingArrowBlockBuilder
  | simple : List Item → DelegatingArrowBlockBuilder
deriving DecidableEq

/-- `DelegatingArrowBlockBuilder.add`: on the first item, a non-dict selects
the simple builder directly; a dict runs the trial construction, selecting
the Arrow builder on success and falling back to the simple builder when the
trial raises a caught error. Later items go to the chosen builder as-is. -/
def DelegatingArrowBlockBuilder.add (d : DelegatingArrowBlockBuilder) (item : Item) :
    Except PyErr DelegatingArrowBlockBuilder :=
  match d with
  | .undecided =>
    match item with
    | .dict r =>
      match trialBuild r with
      | .ok _ =>
        match ArrowBlockBuilder.empty.add (.dict r) with
        | .ok b => .ok (.arrow b)
        | .error e => .error e
      | .error e =>
        if caught e then .ok (.simple [Item.dict r]) else .error e
    | _ => .ok (.simple [item])
  | .arrow b =>
    match b.add item with
    | .ok b => .ok (.arrow b)
    | .error e => .error e
  | .simple s => .ok (.simple (s ++ [item]))

/-- `DelegatingArrowBlockBuilder.build`: an untouched builder defaults to a
fresh Arrow builder's (empty) block. -/
def DelegatingArrowBlockBuilder.build : DelegatingArrowBlockBuilder → Except PyErr Block
  | .undecided => ArrowBlockBuilder.empty.build.map Block.arrow
  | .arrow b => b.build.map Block.arrow
  | .simple s => .ok (.simple s)

/-- `DelegatingArrowBlockBuilder.num_rows`: 0 while `_builder is None`. -/
def DelegatingArrowBlockBuilder.num_rows : DelegatingArrowBlockBuilder → Nat
  | .undecided => 0
  | .arrow b => b.num_rows
  | .simple s => s.length

/-- A sequence of `add` calls on a delegating builder, left to right. -/
def DelegatingArrowBlockBuilder.addAll (d : DelegatingArrowBlockBuilder) (items : List Item) :
    Except PyErr DelegatingArrowBlockBuilder :=
  items.foldlM DelegatingArrowBlockBuilder.add d

/-- `ArrowBlockAccessor.iter_rows`: the sequence of one-row slices, one
`ArrowRow` view per row index, in order. -/
def ArrowBlockAccessor.iter_rows (t : Table) : List ArrowRow :=
  (List.range t.num_rows).map (fun i => ⟨t.slice i 1⟩)

/-- The mapping form of row `i` of a table, read columnwise: each column
contributes its cell at index `i`, in schema order. -/
def Table.rowAt (t : Table) (i : Nat) : Row :=
  t.cols.map (fun c => (c.1, c.2.getD i (Val.int 0)))

/-- All rows of a table as mapping forms, in row order. -/
def Table.rows (t : Table) : List Row :=
  (List.range t.num_rows).map t.rowAt

/-- Python `==` on two dicts with unique keys: each is contained in the
other as a key-to-value map (insertion order is ignored). -/
def pydictEq (a b : Row) : Bool :=
  a.all (fun kv => b.lookup kv.1 = some kv.2) && b.all (fun kv => a.lookup kv.1 = some kv.2)

/-- `ArrowRow.__eq__` as resolved by Python's dispatch on two row views:
`self.as_pydict() == other` delegates back to the other view, ending in a
dict-to-dict value comparison of the two mapping forms. -/
def ArrowRow.eq (r1 r2 : ArrowRow) : Bool :=
  pydictEq r1.as_pydict r2.as_pydict

/-- One call in an interleaved sequence of `add(dict)` / `add_block(table)`
calls on an `ArrowBlockBuilder`. -/
inductive Op where
  | addRow : Row → Op
  | addBlock : Table → Op
deriving DecidableEq

/-- The successful-state transition of one call (an `add` of a dict never
raises; `add_block` never raises). -/
def ArrowBlockBuilder.applyOp (b : ArrowBlockBuilder) : Op → ArrowBlockBuilder
  | .addRow r => { b with columns := addRowCols b.columns r, num_rows := b.num_rows + 1 }
  | .addBlock t => b.add_block t

/-- Run an interleaved call sequence through the actual `add` / `add_block`
operations. -/
def ArrowBlockBuilder.runOps (b : ArrowBlockBuilder) (ops : List Op) :
    Except PyErr ArrowBlockBuilder :=
  ops.foldlM
    (fun b op =>
      match op with
      | .addRow r => b.add (.dict r)
      | .addBlock t => .ok (b.add_block t)) b

/-- The pure fold of the call sequence's state transitions. -/
def ArrowBlockBuilder.applyOps (b : ArrowBlockBuilder) (ops : List Op) : ArrowBlockBuilder :=
  ops.foldl ArrowBlockBuilder.applyOp b

/-- The rows passed to `add`, in call order. -/
def opsRows (ops : List Op) : List Row :=
  ops.filterMap (fun op => match op with | .addRow r => some r | .addBlock _ => none)

/-- The tables passed to `add_block`, in call order. -/
def opsBlocks (ops : List Op) : List Table :=
  ops.filterMap (fun op => match op with | .addRow _ => none | .addBlock t => some t)

/-- The column table determined by rows sharing the key list `ks`: one
column per key in key order, each holding that key's cell from every row in
row order. -/
def mkCols : List String → List (List Val) → List (String × List Val)
  | [], _ => []
  | k :: ks, vss =>
    (k, vss.map (fun vs => vs.headD (Val.int 0))) :: mkCols ks (vss.map List.tail)

/-! ## Basic lemmas -/

theorem addAll_simple (s items : List Item) :
    DelegatingArrowBlockBuilder.addAll (.simple s) items = .ok (.simple (s ++ items)) := by
  induction items generalizing s with
  | nil => simp [DelegatingArrowBlockBuilder.addAll, pure, Except.pure]
  | cons it rest ih =>
    calc DelegatingArrowBlockBuilder.addAll (.simple s) (it :: rest)
        = DelegatingArrowBlockBuilder.addAll (.simple (s ++ [it])) rest := rfl
      _ = .ok (.simple ((s ++ [it]) ++ rest)) := ih (s ++ [it])
      _ = .ok (.simple (s ++ (it :: rest))) := by simp

theorem addRowCols_cons_notmem (k : String) (x : List Val)
    (c : List (String × List Val)) (r : Row) (h : k ∉ r.map Prod.fst) :
    addRowCols ((k, x) :: c) r = (k, x) :: addRowCols c r := by
  induction r generalizing c x with
  | nil => rfl
  | cons kv r ih =>
    simp only [List.map_cons, List.mem_cons, not_or] at h
    obtain ⟨h1, h2⟩ := h
    show addRowCols (appendCol ((k, x) :: c) kv.1 kv.2) r = _
    rw [show appendCol ((k, x) :: c) kv.1 kv.2 = (k, x) :: appendCol c kv.1 kv.2 from by
      simp [appendCol, h1]]
    exact ih x (appendCol c kv.1 kv.2) h2

theorem addRowCols_nil_zip (ks : List String) (vs : List Val)
    (hnd : ks.Nodup) (hlen : vs.length = ks.length) :
    addRowCols [] (ks.zip vs) = mkCols ks [vs] := by
  induction ks generalizing vs with
  | nil => rfl
  | cons k ks ih =>
    cases vs with
    | nil => simp at hlen
    | cons v vs =>
      have hmem : k ∉ (ks.zip vs).map Prod.fst := by
        rw [List.map_fst_zip ks vs (by simpa using hlen.symm.le)]
        exact (List.nodup_cons.mp hnd).1
      show addRowCols (appendCol [] k v) (ks.zip vs) = _
      rw [show appendCol [] k v = [(k, [v])] from rfl,
        addRowCols_cons_notmem k [v] [] (ks.zip vs) hmem,
        ih vs (List.nodup_cons.mp hnd).2 (by simpa using hlen)]
      simp [mkCols]

theorem addRowCols_mkCols (ks : List String) (vss : List (List Val)) (vs : List Val)
    (hnd : ks.Nodup) (hlen : vs.length = ks.length) :
    addRowCols (mkCols ks vss) (ks.zip vs) = mkCols ks (vss ++ [vs]) := by
  induction ks generalizing vss vs with
  | nil => rfl
  | cons k ks ih =>
    cases vs with
    | nil => simp at hlen
    | cons v vs =>
      have hmem : k ∉ (ks.zip vs).map Prod.fst := by
        rw [List.map_fst_zip ks vs (by simpa using hlen.symm.le)]
        exact (List.nodup_cons.mp hnd).1
      show addRowCols
        (appendCol ((k, vss.map (fun vs => vs.headD (Val.int 0))) :: mkCols ks (vss.map List.tail))
          k v) (ks.zip vs) = _
      rw [show appendCol
            ((k, vss.map (fun vs => vs.headD (Val.int 0))) :: mkCols ks (vss.map List.tail)) k v =
          (k, vss.map (fun vs => vs.headD (Val.int 0)) ++ [v]) :: mkCols ks (vss.map List.tail)
          from by simp [appendCol],
        addRowCols_cons_notmem _ _ _ _ hmem,
        ih (vss.map List.tail) vs (List.nodup_cons.mp hnd).2 (by simpa using hlen)]
      simp [mkCols]

theorem foldl_addRowCols_mkCols (ks : List String) (vss₂ : List (List Val))
    (hnd : ks.Nodup) (hlen : ∀ vs ∈ vss₂, vs.length = ks.length) :
    ∀ vss₁, (vss₂.map (fun vs => ks.zip vs)).foldl addRowCols (mkCols ks vss₁) =
      mkCols ks (vss₁ ++ vss₂) := by
  induction vss₂ with
  | nil => intro vss₁; simp
  | cons vs vss ih =>
    intro vss₁
    simp only [List.map_cons, List.foldl_cons]
    rw [addRowCols_mkCols ks vss₁ vs hnd (hlen vs (by simp))]
    rw [ih (fun v hv => hlen v (by simp [hv])) (vss₁ ++ [vs])]
    simp

theorem foldl_addRowCols_nil (ks : List String) (vss : List (List Val))
    (hnd : ks.Nodup) (hne : vss ≠ []) (hlen : ∀ vs ∈ vss, vs.length = ks.length) :
    (vss.map (fun vs => ks.zip vs)).foldl addRowCols [] = mkCols ks vss := by
  cases vss with
  | nil => exact absurd rfl hne
  | cons vs vss =>
    simp only [List.map_cons, List.foldl_cons]
    rw [addRowCols_nil_zip ks vs hnd (hlen vs (by simp))]
    simpa using
      foldl_addRowCols_mkCols ks vss hnd (fun v hv => hlen v (by simp [hv])) [vs]

theorem mkCols_names (ks : List String) (vss : List (List Val)) :
    (mkCols ks vss).map Prod.fst = ks := by
  induction ks generalizing vss with
  | nil => rfl
  | cons k ks ih => simp [mkCols, ih]

theorem mkCols_lengths (ks : List String) (vss : List (List Val)) :
    ∀ c ∈ mkCols ks vss, c.2.length = vss.length := by
  induction ks generalizing vss with
  | nil => simp [mkCols]
  | cons k ks ih =>
    intro c hc
    simp only [mkCols, List.mem_cons] at hc
    rcases hc with rfl | hc
    · simp
    · simpa using ih (vss.map List.tail) c hc

theorem mkCols_supported (ks : List String) (vss : List (List Val))
    (h : ∀ vs ∈ vss, ∀ v ∈ vs, v.supported = true) :
    ∀ c ∈ mkCols ks vss, ∀ v ∈ c.2, v.supported = true := by
  induction ks generalizing vss with
  | nil => simp [mkCols]
  | cons k ks ih =>
    intro c hc
    simp only [mkCols, List.mem_cons] at hc
    rcases hc with rfl | hc
    · intro v hv
      simp only [List.mem_map] at hv
      obtain ⟨vs, hvs, rfl⟩ := hv
      cases vs with
      | nil => rfl
      | cons a l => exact h _ hvs a (by simp)
    · refine ih (vss.map List.tail) ?_ c hc
      intro vs hvs v hv
      simp only [List.mem_map] at hvs
      obtain ⟨vs', hvs', rfl⟩ := hvs
      exact h vs' hvs' v (List.mem_of_mem_tail hv)

theorem mkCols_rowAt (ks : List String) (vss : List (List Val)) (i : Nat)
    (hi : i < vss.length) (hlen : ∀ vs ∈ vss, vs.length = ks.length) :
    (mkCols ks vss).map (fun c => (c.1, c.2.getD i (Val.int 0))) =
      ks.zip (vss.getD i []) := by
  induction ks generalizing vss with
  | nil => simp [mkCols]
  | cons k ks ih =>
    simp only [mkCols, List.map_cons]
    have hmi : i < (vss.map (fun vs => vs.headD (Val.int 0))).length := by simpa using hi
    have hgd : (vss.map (fun vs => vs.headD (Val.int 0))).getD i (Val.int 0) =
        (vss.getD i []).headD (Val.int 0) := by
      rw [List.getD_eq_getElem _ _ hmi, List.getElem_map, List.getD_eq_getElem _ _ hi]
    have hvi : vss.getD i [] ∈ vss := by
      rw [List.getD_eq_getElem _ _ hi]
      exact List.getElem_mem hi
    have hlvi : (vss.getD i []).length = ks.length + 1 := by simpa using hlen _ hvi
    obtain ⟨v, tl, hv⟩ : ∃ v tl, vss.getD i [] = v :: tl := by
      cases hc : vss.getD i [] with
      | nil => rw [hc] at hlvi; simp at hlvi
      | cons v tl => exact ⟨v, tl, rfl⟩
    have htail : (vss.map List.tail).getD i [] = tl := by
      rw [List.getD_eq_getElem _ _ (by simpa using hi), List.getElem_map,
        ← List.getD_eq_getElem _ _ hi, hv]
      rfl
    rw [hgd, hv, ih (vss.map List.tail) (by simpa using hi) ?_, htail]
    · simp
    · intro vs hvs
      simp only [List.mem_map] at hvs
      obtain ⟨vs', hvs', rfl⟩ := hvs
      have := hlen vs' hvs'
      simp only [List.length_cons] at this
      cases vs' with
      | nil => simp at this
      | cons a l => simpa using this

theorem wf_iff (t : Table) : t.wf = true ↔ ∀ c ∈ t.cols, c.2.length = t.num_rows := by
  simp [Table.wf, List.all_eq_true]

theorem zipcols_names : ∀ (ac bc : List (String × List Val)),
    ac.map Prod.fst = bc.map Prod.fst →
    (List.zipWith (fun c d => (c.1, c.2 ++ d.2)) ac bc).map Prod.fst = ac.map Prod.fst := by
  intro ac
  induction ac with
  | nil => intro bc h; simp
  | cons a ac ih =>
    intro bc h
    cases bc with
    | nil => simp at h
    | cons b bc =>
      simp only [List.map_cons, List.cons.injEq] at h
      simp [ih bc h.2]

theorem zipcols_lengths (na nb : Nat) : ∀ (ac bc : List (String × List Val)),
    ac.map Prod.fst = bc.map Prod.fst →
    (∀ c ∈ ac, c.2.length = na) → (∀ c ∈ bc, c.2.length = nb) →
    ∀ c ∈ List.zipWith (fun c d => (c.1, c.2 ++ d.2)) ac bc, c.2.length = na + nb := by
  intro ac
  induction ac with
  | nil => simp
  | cons a ac ih =>
    intro bc h ha hb
    cases bc with
    | nil => simp at h
    | cons b bc =>
      simp only [List.map_cons, List.cons.injEq] at h
      intro c hc
      simp only [List.zipWith_cons_cons, List.mem_cons] at hc
      rcases hc with rfl | hc
      · simp [ha a (by simp), hb b (by simp)]
      · exact ih bc h.2 (fun c hc => ha c (by simp [hc])) (fun c hc => hb c (by simp [hc])) c hc

theorem zipcols_getD_left (na i : Nat) (hi : i < na) : ∀ (ac bc : List (String × List Val)),
    ac.map Prod.fst = bc.map Prod.fst →
    (∀ c ∈ ac, c.2.length = na) →
    (List.zipWith (fun c d => (c.1, c.2 ++ d.2)) ac bc).map
        (fun c => (c.1, c.2.getD i (Val.int 0))) =
      ac.map (fun c => (c.1, c.2.getD i (Val.int 0))) := by
  intro ac
  induction ac with
  | nil => intro bc h ha; simp
  | cons a ac ih =>
    intro bc h ha
    cases bc with
    | nil => simp at h
    | cons b bc =>
      simp only [List.map_cons, List.cons.injEq] at h
      simp only [List.zipWith_cons_cons, List.map_cons]
      rw [List.getD_append _ _ _ _ (by rw [ha a (by simp)]; exact hi),
        ih bc h.2 (fun c hc => ha c (by simp [hc]))]

theorem zipcols_getD_right (na j : Nat) : ∀ (ac bc : List (String × List Val)),
    ac.map Prod.fst = bc.map Prod.fst →
    (∀ c ∈ ac, c.2.length = na) →
    (List.zipWith (fun c d => (c.1, c.2 ++ d.2)) ac bc).map
        (fun c => (c.1, c.2.getD (na + j) (Val.int 0))) =
      bc.map (fun c => (c.1, c.2.getD j (Val.int 0))) := by
  intro ac
  induction ac with
  | nil =>
    intro bc h ha
    simp only [List.map] at h
    rw [List.eq_nil_of_map_eq_nil h.symm]
    simp
  | cons a ac ih =>
    intro bc h ha
    cases bc with
    | nil => simp at h
    | cons b bc =>
      simp only [List.map_cons, List.cons.injEq] at h
      simp only [List.zipWith_cons_cons, List.map_cons]
      have hidx : na + j - a.2.length = j := by
        rw [ha a (by simp)]
        omega
      rw [List.getD_append_right _ _ _ _ (by rw [ha a (by simp)]; omega),
        ih bc h.2 (fun c hc => ha c (by simp [hc])), h.1, hidx]

theorem concat2_spec (a b : Table) (hn : a.names = b.names)
    (ha : a.wf = true) (hb : b.wf = true) :
    ∃ c, concat2 a b = .ok c ∧ c.names = a.names ∧ c.wf = true ∧
      c.num_rows = a.num_rows + b.num_rows ∧
      Table.rows c = Table.rows a ++ Table.rows b := by
  have hawf := (wf_iff a).mp ha
  have hbwf := (wf_iff b).mp hb
  have hnc : a.cols.map Prod.fst = b.cols.map Prod.fst := hn
  have hnum :
      Table.num_rows ⟨List.zipWith (fun c d => (c.1, c.2 ++ d.2)) a.cols b.cols⟩ =
        a.num_rows + b.num_rows := by
    rcases hca : a.cols with _ | ⟨ca, resta⟩ <;> rcases hcb : b.cols with _ | ⟨cb, restb⟩
    · simp [Table.num_rows, hca, hcb]
    · rw [hca, hcb] at hnc; simp at hnc
    · rw [hca, hcb] at hnc; simp at hnc
    · have h1 : ca.2.length = a.num_rows := hawf ca (by rw [hca]; simp)
      have h2 : cb.2.length = b.num_rows := hbwf cb (by rw [hcb]; simp)
      simp only [Table.num_rows, hca, hcb, List.zipWith_cons_cons, List.length_append]
  refine ⟨⟨List.zipWith (fun c d => (c.1, c.2 ++ d.2)) a.cols b.cols⟩, ?_, ?_, ?_, hnum, ?_⟩
  case _ => simp [concat2, hn]
  case _ => exact zipcols_names a.cols b.cols hnc
  case _ =>
    rw [wf_iff]
    intro c hc
    rw [hnum]
    exact zipcols_lengths a.num_rows b.num_rows a.cols b.cols hnc hawf hbwf c hc
  case _ =>
    show Table.rows _ = _
    unfold Table.rows
    rw [hnum, List.range_add, List.map_append, List.map_map]
    congr 1
    · apply List.map_congr_left
      intro i hi
      rw [List.mem_range] at hi
      exact zipcols_getD_left a.num_rows i hi a.cols b.cols hnc hawf
    · apply List.map_congr_left
      intro j _
      exact zipcols_getD_right a.num_rows j a.cols b.cols hnc hawf

theorem foldlM_concat2_spec (ks : List String) :
    ∀ (ts : List Table) (t : Table), t.names = ks → t.wf = true →
      (∀ u ∈ ts, u.names = ks ∧ u.wf = true) →
      ∃ c, ts.foldlM concat2 t = .ok c ∧ c.names = ks ∧ c.wf = true ∧
        c.num_rows = t.num_rows + (ts.map Table.num_rows).sum ∧
        Table.rows c = Table.rows t ++ (ts.map Table.rows).flatten := by
  intro ts
  induction ts with
  | nil => intro t h1 h2 _; exact ⟨t, rfl, h1, h2, by simp, by simp⟩
  | cons u ts ih =>
    intro t h1 h2 hu
    obtain ⟨c1, hc1, hn1, hw1, hnum1, hrows1⟩ :=
      concat2_spec t u (by rw [h1, (hu u (by simp)).1]) h2 (hu u (by simp)).2
    obtain ⟨c, hc, hn, hw, hnum, hrows⟩ :=
      ih c1 (hn1.trans h1) hw1 (fun v hv => hu v (by simp [hv]))
    refine ⟨c, ?_, hn, hw, ?_, ?_⟩
    · calc (u :: ts).foldlM concat2 t
          = concat2 t u >>= fun x => ts.foldlM concat2 x := by rfl
        _ = ts.foldlM concat2 c1 := by rw [hc1]; rfl
        _ = .ok c := hc
    · rw [hnum, hnum1]
      simp only [List.map_cons, List.sum_cons]
      omega
    · rw [hrows, hrows1]
      simp

theorem from_pydict_mkCols (ks : List String) (vss : List (List Val))
    (hsupp : ∀ vs ∈ vss, ∀ v ∈ vs, v.supported = true) :
    Table.from_pydict (mkCols ks vss) = .ok ⟨mkCols ks vss⟩ := by
  have hs : (mkCols ks vss).all (fun c => c.2.all Val.supported) = true := by
    rw [List.all_eq_true]
    intro c hc
    rw [List.all_eq_true]
    exact fun v hv => mkCols_supported ks vss hsupp c hc v hv
  unfold Table.from_pydict
  rw [if_pos hs]
  cases hmk : mkCols ks vss with
  | nil => rfl
  | cons c rest =>
    obtain ⟨k, v⟩ := c
    have hlens : rest.all (fun d => d.2.length == v.length) = true := by
      rw [List.all_eq_true]
      intro d hd
      have h1 := mkCols_lengths ks vss d (by rw [hmk]; exact List.mem_cons_of_mem _ hd)
      have h2 := mkCols_lengths ks vss (k, v) (by rw [hmk]; simp)
      simp only at h2
      simp [h1, h2]
    show (if (rest.all fun c => c.2.length == v.length) = true then
        Except.ok (Table.mk ((k, v) :: rest)) else Except.error PyErr.arrowInvalid) =
      Except.ok (Table.mk ((k, v) :: rest))
    rw [if_pos hlens]

theorem mkCols_num_rows (ks : List String) (vss : List (List Val)) (hks : ks ≠ []) :
    Table.num_rows ⟨mkCols ks vss⟩ = vss.length := by
  cases ks with
  | nil => exact absurd rfl hks
  | cons k ks => simp [mkCols, Table.num_rows]

theorem rows_mkCols (ks : List String) (rs : List Row) (hks : ks ≠ [])
    (hrows : ∀ r ∈ rs, r.map Prod.fst = ks) :
    Table.rows ⟨mkCols ks (rs.map (List.map Prod.snd))⟩ = rs := by
  have hlen : ∀ vs ∈ rs.map (List.map Prod.snd), vs.length = ks.length := by
    intro vs hvs
    simp only [List.mem_map] at hvs
    obtain ⟨r, hr, rfl⟩ := hvs
    have := congrArg List.length (hrows r hr)
    simpa using this
  apply List.ext_getElem
  · simp [Table.rows, mkCols_num_rows ks _ hks]
  · intro i h1 h2
    have hi : i < rs.length := by
      simpa [Table.rows, mkCols_num_rows ks _ hks] using h1
    have hlt : i < (List.range (Table.num_rows ⟨mkCols ks (rs.map (List.map Prod.snd))⟩)).length := by
      simpa [Table.rows] using h1
    simp only [Table.rows, List.getElem_map, List.getElem_range]
    show Table.rowAt _ i = rs[i]
    unfold Table.rowAt
    rw [mkCols_rowAt ks _ i (by simpa using hi) hlen]
    rw [List.getD_eq_getElem _ _ (by simpa using hi), List.getElem_map]
    exact (List.zip_of_prod (hrows rs[i] (List.getElem_mem hi)) rfl).symm

theorem applyOps_spec (ops : List Op) : ∀ b : ArrowBlockBuilder,
    ArrowBlockBuilder.applyOps b ops =
      ⟨(opsRows ops).foldl addRowCols b.columns,
       b.tables ++ opsBlocks ops,
       b.num_rows + (opsRows ops).length + ((opsBlocks ops).map Table.num_rows).sum⟩ := by
  induction ops with
  | nil =>
    intro b
    simp [ArrowBlockBuilder.applyOps, opsRows, opsBlocks]
  | cons op ops ih =>
    intro b
    cases op with
    | addRow r =>
      have h := ih (b.applyOp (.addRow r))
      calc ArrowBlockBuilder.applyOps b (.addRow r :: ops)
          = ArrowBlockBuilder.applyOps (b.applyOp (.addRow r)) ops := rfl
        _ = _ := by
          rw [h]
          simp only [ArrowBlockBuilder.applyOp, opsRows, opsBlocks, List.filterMap_cons]
          refine congrArg₂ (ArrowBlockBuilder.mk _) ?_ ?_
          · rfl
          · simp only [List.length_cons]
            omega
    | addBlock t =>
      have h := ih (b.applyOp (.addBlock t))
      calc ArrowBlockBuilder.applyOps b (.addBlock t :: ops)
          = ArrowBlockBuilder.applyOps (b.applyOp (.addBlock t)) ops := rfl
        _ = _ := by
          rw [h]
          simp only [ArrowBlockBuilder.applyOp, ArrowBlockBuilder.add_block, opsRows, opsBlocks,
            List.filterMap_cons]
          refine congrArg₂ (ArrowBlockBuilder.mk _) ?_ ?_
          · simp
          · simp only [List.map_cons, List.sum_cons]
            omega

theorem runOps_eq_applyOps (ops : List Op) : ∀ b : ArrowBlockBuilder,
    ArrowBlockBuilder.runOps b ops = .ok (ArrowBlockBuilder.applyOps b ops) := by
  induction ops with
  | nil => intro b; rfl
  | cons op ops ih =>
    intro b
    cases op with
    | addRow r => exact ih (b.applyOp (.addRow r))
    | addBlock t => exact ih (b.applyOp (.addBlock t))

theorem as_pydict_slice (t : Table) (i : Nat) (hwf : t.wf = true) (hi : i < t.num_rows) :
    (ArrowRow.mk (t.slice i 1)).as_pydict = t.rowAt i := by
  unfold ArrowRow.as_pydict Table.slice Table.rowAt
  simp only [List.map_map]
  apply List.map_congr_left
  intro c hc
  have hlen : c.2.length = t.num_rows := (wf_iff t).mp hwf c hc
  have hi' : i < c.2.length := by omega
  show (c.1, ((c.2.drop i).take 1).headD (Val.int 0)) = (c.1, c.2.getD i (Val.int 0))
  have hv : ((c.2.drop i).take 1).headD (Val.int 0) = c.2.getD i (Val.int 0) := by
    rw [List.drop_eq_getElem_cons hi', List.getD_eq_getElem _ _ hi']
    rfl
  rw [hv]

theorem build_cols_no_tables (cols : List (String × List Val)) (n : Nat) (t0 : Table)
    (hne : cols ≠ []) (hpd : Table.from_pydict cols = .ok t0) :
    (ArrowBlockBuilder.mk cols [] n).build = .ok t0 := by
  obtain ⟨c0, cols', rfl⟩ : ∃ c0 cols', cols = c0 :: cols' := by
    cases cols with
    | nil => exact absurd rfl hne
    | cons c0 cols' => exact ⟨c0, cols', rfl⟩
  unfold ArrowBlockBuilder.build
  simp only [hpd, List.isEmpty_cons, Bool.false_eq_true, if_false]
  rfl

theorem build_cols_with_tables (cols : List (String × List Val)) (n : Nat) (t0 u : Table)
    (ts : List Table) (hne : cols ≠ []) (hpd : Table.from_pydict cols = .ok t0) :
    (ArrowBlockBuilder.mk cols (u :: ts) n).build = concat_tables (t0 :: u :: ts) := by
  obtain ⟨c0, cols', rfl⟩ : ∃ c0 cols', cols = c0 :: cols' := by
    cases cols with
    | nil => exact absurd rfl hne
    | cons c0 cols' => exact ⟨c0, cols', rfl⟩
  unfold ArrowBlockBuilder.build
  simp only [hpd, List.isEmpty_cons, Bool.false_eq_true, if_false]
  rfl

/-- The central characterization of `ArrowBlockBuilder.build` over an
interleaved call sequence whose added rows share the non-empty, duplicate-free
key list `ks` (with convertible values) and whose merged blocks are
well-formed tables over the same schema: the build succeeds, its rows are
the added rows in call order followed by the merged blocks' rows in call
order, and its row count is the number of `add` calls plus the merged
blocks' row counts. -/
theorem arrow_build_spec (ks : List String) (ops : List Op)
    (hnd : ks.Nodup) (hks : ks ≠ [])
    (hrows : ∀ r ∈ opsRows ops, r.map Prod.fst = ks)
    (hsupp : ∀ r ∈ opsRows ops, ∀ kv ∈ r, kv.2.supported = true)
    (hblocks : ∀ u ∈ opsBlocks ops, u.names = ks ∧ u.wf = true) :
    ∃ t, (ArrowBlockBuilder.applyOps ArrowBlockBuilder.empty ops).build = .ok t ∧
      Table.rows t = opsRows ops ++ ((opsBlocks ops).map Table.rows).flatten ∧
      t.num_rows = (opsRows ops).length + ((opsBlocks ops).map Table.num_rows).sum ∧
      t.wf = true := by
  rw [applyOps_spec ops ArrowBlockBuilder.empty]
  show ∃ t, (ArrowBlockBuilder.mk ((opsRows ops).foldl addRowCols []) (opsBlocks ops) _).build =
    .ok t ∧ _
  rcases hrs : opsRows ops with _ | ⟨r0, rs'⟩
  · rcases hbs : opsBlocks ops with _ | ⟨u, bs'⟩
    · exact ⟨⟨[]⟩, rfl, by simp [Table.rows, Table.num_rows], by simp [Table.num_rows], rfl⟩
    · rcases bs' with _ | ⟨u', bs''⟩
      · exact ⟨u, rfl, by simp, by simp, (hblocks u (by rw [hbs]; simp)).2⟩
      · obtain ⟨c, hc, _, hw, hnum, hrows'⟩ :=
          foldlM_concat2_spec ks (u' :: bs'') u (hblocks u (by rw [hbs]; simp)).1
            (hblocks u (by rw [hbs]; simp)).2
            (fun v hv => hblocks v (by rw [hbs]; simp [hv]))
        refine ⟨c, ?_, ?_, ?_, hw⟩
        · exact hc
        · rw [hrows']
          simp
        · rw [hnum]
          simp
  · have hne : opsRows ops ≠ [] := by rw [hrs]; simp
    rw [← hrs]
    set rs := opsRows ops with hrsdef
    set vss := rs.map (List.map Prod.snd) with hvss
    have hlen : ∀ vs ∈ vss, vs.length = ks.length := by
      intro vs hvs
      rw [hvss] at hvs
      simp only [List.mem_map] at hvs
      obtain ⟨r, hr, rfl⟩ := hvs
      simpa using congrArg List.length (hrows r hr)
    have hzip : vss.map (fun vs => ks.zip vs) = rs := by
      rw [hvss, List.map_map]
      conv_rhs => rw [← List.map_id rs]
      apply List.map_congr_left
      intro r hr
      exact (List.zip_of_prod (hrows r hr) rfl).symm
    have hfold : rs.foldl addRowCols [] = mkCols ks vss := by
      rw [← hzip, foldl_addRowCols_nil ks vss hnd ?_ hlen]
      rw [hvss, hrs]
      simp
    have hsupp' : ∀ vs ∈ vss, ∀ v ∈ vs, v.supported = true := by
      intro vs hvs v hv
      rw [hvss] at hvs
      simp only [List.mem_map] at hvs
      obtain ⟨r, hr, rfl⟩ := hvs
      simp only [List.mem_map] at hv
      obtain ⟨kv, hkv, rfl⟩ := hv
      exact hsupp r hr kv hkv
    have hpd := from_pydict_mkCols ks vss hsupp'
    have hcolsne : mkCols ks vss ≠ [] := by
      cases ks with
      | nil => exact absurd rfl hks
      | cons k ks => simp [mkCols]
    have hct_names : Table.names ⟨mkCols ks vss⟩ = ks := mkCols_names ks vss
    have hct_num : Table.num_rows ⟨mkCols ks vss⟩ = rs.length := by
      rw [mkCols_num_rows ks vss hks, hvss]
      simp
    have hct_wf : Table.wf ⟨mkCols ks vss⟩ = true := by
      rw [wf_iff]
      intro c hc
      rw [hct_num]
      have := mkCols_lengths ks vss c hc
      rw [this, hvss]
      simp
    have hct_rows : Table.rows ⟨mkCols ks vss⟩ = rs := by
      rw [hvss]
      exact rows_mkCols ks rs hks hrows
    rcases hbs : opsBlocks ops with _ | ⟨u, bs'⟩
    · refine ⟨⟨mkCols ks vss⟩, ?_, ?_, ?_, hct_wf⟩
      · rw [hfold]
        exact build_cols_no_tables (mkCols ks vss) _ _ hcolsne hpd
      · rw [hct_rows]
        simp
      · rw [hct_num]
        simp
    · obtain ⟨c, hc, _, hw, hnum, hrows'⟩ :=
        foldlM_concat2_spec ks (u :: bs') ⟨mkCols ks vss⟩ hct_names hct_wf
          (fun v hv => hblocks v (by rw [hbs]; exact hv))
      refine ⟨c, ?_, ?_, ?_, hw⟩
      · rw [hfold]
        rw [build_cols_with_tables (mkCols ks vss) _ ⟨mkCols ks vss⟩ u bs' hcolsne hpd]
        exact hc
      · rw [hrows', hct_rows]
      · rw [hnum, hct_num]

/-! ## Claim theorems -/

/-- C7: on a freshly constructed delegating builder, `num_rows()` is 0 and
`build()` yields an empty columnar block with zero rows and no columns. -/
theorem delegating_fresh_builds_empty_arrow_block :
    DelegatingArrowBlockBuilder.num_rows .undecided = 0 ∧
    DelegatingArrowBlockBuilder.build .undecided = .ok (.arrow ⟨[]⟩) ∧
    Table.num_rows ⟨[]⟩ = 0 ∧ Table.names ⟨[]⟩ = [] := by
  decide

/-- C5: adding `{"a": 1}`, `{"a": 2}`, `{"a": 3}` to a fresh delegating
builder and building yields a 3-row columnar block with the single column
"a" holding `[1, 2, 3]` in order. -/
theorem delegating_scenario_a :
    (DelegatingArrowBlockBuilder.addAll .undecided
        [.dict [("a", .int 1)], .dict [("a", .int 2)], .dict [("a", .int 3)]] >>=
      DelegatingArrowBlockBuilder.build) =
      .ok (.arrow ⟨[("a", [Val.int 1, Val.int 2, Val.int 3])]⟩) ∧
    Table.num_rows ⟨[("a", [Val.int 1, Val.int 2, Val.int 3])]⟩ = 3 ∧
    Table.names ⟨[("a", [Val.int 1, Val.int 2, Val.int 3])]⟩ = ["a"] := by
  decide

/-- C10: whenever the Arrow builder holds no pending columns and exactly
one accumulated table — in particular after a single `add_block` and no
`add` — `build()` returns that very table unchanged, for every table value
(even one the external library's construction or concatenation calls would
reject, showing neither is invoked). -/
theorem build_single_table_returned_as_is (t : Table) (n : Nat) :
    (ArrowBlockBuilder.mk [] [t] n).build = .ok t ∧
    (ArrowBlockBuilder.empty.add_block t).build = .ok t :=
  ⟨rfl, rfl⟩

/-- C4 counterexample: `add` of a non-mapping item fails with `ValueError`,
which is not a `TypeError`-class error (in Python, `ValueError` is not a
subclass of `TypeError`), contradicting the claim's stated error class. -/
theorem add_nondict_raises_valueerror_not_typeerror :
    ArrowBlockBuilder.empty.add (.other 0) = .error .valueError ∧
    PyErr.valueError ≠ PyErr.typeError := by
  decide

/-- C4 amended: `add` of an item that is neither a dict nor an `ArrowRow`
fails immediately with a `ValueError`-class error, and the failed call
leaves the builder's pending columns, merged tables and row count
unchanged (the error is raised before any state mutation). -/
theorem add_nondict_raises_valueerror (b : ArrowBlockBuilder) (tag : Nat) :
    b.add (.other tag) = .error .valueError :=
  rfl

/-- C3: when the first item added to a delegating builder is not a dict,
the simple representation is selected on that first `add` and kept for the
whole sequence: every later item is routed to the same simple builder,
which accumulates exactly the added items in call order, and no call
fails or re-routes. -/
theorem delegating_first_nondict_stays_simple (it : Item) (rest : List Item)
    (h : it.isDict = false) :
    DelegatingArrowBlockBuilder.addAll .undecided (it :: rest) =
      .ok (.simple (it :: rest)) := by
  cases it with
  | dict r => simp [Item.isDict] at h
  | arrowRow ar =>
    calc DelegatingArrowBlockBuilder.addAll .undecided (.arrowRow ar :: rest)
        = DelegatingArrowBlockBuilder.addAll (.simple [.arrowRow ar]) rest := rfl
      _ = .ok (.simple ([.arrowRow ar] ++ rest)) := addAll_simple _ rest
      _ = .ok (.simple (.arrowRow ar :: rest)) := by simp
  | other n =>
    calc DelegatingArrowBlockBuilder.addAll .undecided (.other n :: rest)
        = DelegatingArrowBlockBuilder.addAll (.simple [.other n]) rest := rfl
      _ = .ok (.simple ([.other n] ++ rest)) := addAll_simple _ rest
      _ = .ok (.simple (.other n :: rest)) := by simp

/-- C3 witness: a concrete run whose first item is non-mapping and whose
second is a dict still yields the simple representation with both items. -/
theorem delegating_first_nondict_stays_simple_witness :
    (Item.other 0).isDict = false ∧
    DelegatingArrowBlockBuilder.addAll .undecided
        [Item.other 0, Item.dict [("a", Val.int 1)]] =
      .ok (.simple [Item.other 0, Item.dict [("a", Val.int 1)]]) :=
  ⟨by decide,
    delegating_first_nondict_stays_simple (Item.other 0)
      [Item.dict [("a", Val.int 1)]] (by decide)⟩

/-- C8: when the first item is a dict but the trial construction fails with
an error of a caught class (`TypeError` or `ArrowInvalid`), the error is not
propagated: the delegating builder transitions to the simple representation
and the simple builder's state is exactly that one item. -/
theorem delegating_trial_failure_falls_back (r : Row) (e : PyErr)
    (htrial : trialBuild r = .error e) (hc : caught e = true) :
    DelegatingArrowBlockBuilder.add .undecided (.dict r) =
      .ok (.simple [.dict r]) := by
  simp [DelegatingArrowBlockBuilder.add, htrial, hc]

/-- C8 witness: a dict holding a value the Arrow library cannot convert
makes the trial fail with `ArrowInvalid`, and the delegating builder falls
back to the simple representation holding just that item. -/
theorem delegating_trial_failure_falls_back_witness :
    trialBuild [("a", Val.unsupported 0)] = .error .arrowInvalid ∧
    caught .arrowInvalid = true ∧
    DelegatingArrowBlockBuilder.add .undecided (.dict [("a", Val.unsupported 0)]) =
      .ok (.simple [.dict [("a", Val.unsupported 0)]]) :=
  ⟨by decide, by decide,
    delegating_trial_failure_falls_back [("a", Val.unsupported 0)] .arrowInvalid
      (by decide) (by decide)⟩

/-- C1 counterexample: call `add_block` with a one-row table (cell 10) and
then `add` a row (cell 1); the built block's rows are `[1, 10]` — the row
contributed by the later `add` call comes first — while call order would
demand `[10, 1]`. Row order therefore does not follow call order. -/
theorem build_order_not_call_order :
    ((ArrowBlockBuilder.empty.add_block ⟨[("a", [Val.int 10])]⟩).add
        (.dict [("a", Val.int 1)]) >>= ArrowBlockBuilder.build) =
      .ok ⟨[("a", [Val.int 1, Val.int 10])]⟩ ∧
    Table.rows ⟨[("a", [Val.int 1, Val.int 10])]⟩ =
      [[("a", Val.int 1)], [("a", Val.int 10)]] ∧
    [[("a", Val.int 1)], [("a", Val.int 10)]] ≠
      [[("a", Val.int 10)], [("a", Val.int 1)]] := by
  decide

/-- C2 counterexample: after a single `add` of an empty dict, the builder's
`num_rows()` is 1, yet `build()` returns a table with 0 rows: the built
block's row count differs from the builder's `num_rows()`. -/
theorem build_rowcount_mismatch_on_empty_dict :
    ArrowBlockBuilder.empty.add (.dict []) = .ok ⟨[], [], 1⟩ ∧
    (ArrowBlockBuilder.mk [] [] 1).num_rows = 1 ∧
    (ArrowBlockBuilder.mk [] [] 1).build = .ok ⟨[]⟩ ∧
    Table.num_rows ⟨[]⟩ ≠ (ArrowBlockBuilder.mk [] [] 1).num_rows := by
  decide

theorem lookup_mem : ∀ {l : Row} {k : String} {v : Val},
    List.lookup k l = some v → (k, v) ∈ l := by
  intro l
  induction l with
  | nil => intro k v h; simp [List.lookup] at h
  | cons kv l ih =>
    intro k v h
    obtain ⟨k1, v1⟩ := kv
    simp only [List.lookup] at h
    by_cases hk : k = k1
    · subst hk
      simp only [beq_self_eq_true] at h
      simp only [Option.some.injEq] at h
      simp [h]
    · rw [show (k == k1) = false from by simp [hk]] at h
      exact List.mem_cons_of_mem _ (ih h)

theorem mem_lookup : ∀ (l : Row) (k : String) (v : Val),
    (l.map Prod.fst).Nodup → (k, v) ∈ l → List.lookup k l = some v := by
  intro l
  induction l with
  | nil => intro k v _ h; simp at h
  | cons kv l ih =>
    intro k v hnd h
    obtain ⟨k1, v1⟩ := kv
    simp only [List.map_cons, List.nodup_cons] at hnd
    rcases List.mem_cons.mp h with heq | hmem
    · injection heq with h1 h2
      subst h1
      subst h2
      simp [List.lookup]
    · have hk : k ≠ k1 := by
        rintro rfl
        exact hnd.1 (List.mem_map_of_mem Prod.fst hmem)
      simp only [List.lookup, show (k == k1) = false from by simp [hk]]
      exact ih k v hnd.2 hmem

theorem pydictEq_iff (a b : Row)
    (hna : (a.map Prod.fst).Nodup) (hnb : (b.map Prod.fst).Nodup) :
    pydictEq a b = true ↔ ∀ k, List.lookup k a = List.lookup k b := by
  simp only [pydictEq, Bool.and_eq_true, List.all_eq_true, decide_eq_true_eq]
  constructor
  · rintro ⟨h1, h2⟩ k
    cases ha : List.lookup k a with
    | some v =>
      rw [h1 (k, v) (lookup_mem ha)]
    | none =>
      cases hb : List.lookup k b with
      | none => rfl
      | some v =>
        have := h2 (k, v) (lookup_mem hb)
        rw [ha] at this
        exact absurd this (by simp)
  · intro h
    constructor
    · intro kv hkv
      rw [← h kv.1]
      exact mem_lookup a kv.1 kv.2 hna (by simpa using hkv)
    · intro kv hkv
      rw [h kv.1]
      exact mem_lookup b kv.1 kv.2 hnb (by simpa using hkv)

theorem opsRows_map_addRow (rs : List Row) : opsRows (rs.map Op.addRow) = rs := by
  induction rs with
  | nil => rfl
  | cons r rs ih =>
    simp only [opsRows, List.map_cons, List.filterMap_cons] at ih ⊢
    rw [ih]

theorem opsBlocks_map_addRow (rs : List Row) : opsBlocks (rs.map Op.addRow) = [] := by
  induction rs with
  | nil => rfl
  | cons r rs ih =>
    simp only [opsBlocks, List.map_cons, List.filterMap_cons] at ih ⊢
    exact ih

/-- C1 amended: for every interleaved sequence of `add(row)` and
`add_block(table)` calls whose added rows share one non-empty,
duplicate-free key list with convertible values, and whose merged blocks
are well-formed tables over the same schema, every call and the final
`build()` succeed, and the built block does NOT follow call order: it
places all rows contributed by `add` first (in `add` call order), followed
by all merged blocks' rows (in `add_block` call order); its row count
equals the sum of all contributed rows. -/
theorem build_adds_first_then_blocks (ks : List String) (ops : List Op)
    (hnd : ks.Nodup) (hks : ks ≠ [])
    (hrows : ∀ r ∈ opsRows ops, r.map Prod.fst = ks)
    (hsupp : ∀ r ∈ opsRows ops, ∀ kv ∈ r, kv.2.supported = true)
    (hblocks : ∀ u ∈ opsBlocks ops, u.names = ks ∧ u.wf = true) :
    ∃ bb t, ArrowBlockBuilder.runOps ArrowBlockBuilder.empty ops = .ok bb ∧
      bb.build = .ok t ∧
      Table.rows t = opsRows ops ++ ((opsBlocks ops).map Table.rows).flatten ∧
      t.num_rows = (opsRows ops).length + ((opsBlocks ops).map Table.num_rows).sum := by
  obtain ⟨t, h1, h2, h3, _⟩ := arrow_build_spec ks ops hnd hks hrows hsupp hblocks
  exact ⟨_, t, runOps_eq_applyOps ops _, h1, h2, h3⟩

/-- C1 amended witness: one `add_block` call followed by one `add` call,
with the built block holding the added row first. -/
theorem build_adds_first_then_blocks_witness :
    (["a"] : List String).Nodup ∧
    (∃ bb t, ArrowBlockBuilder.runOps ArrowBlockBuilder.empty
        [.addRow [("a", Val.int 1)], .addBlock ⟨[("a", [Val.int 10])]⟩] = .ok bb ∧
      bb.build = .ok t ∧
      Table.rows t =
        opsRows [.addRow [("a", Val.int 1)], .addBlock ⟨[("a", [Val.int 10])]⟩] ++
          ((opsBlocks [.addRow [("a", Val.int 1)],
            .addBlock ⟨[("a", [Val.int 10])]⟩]).map Table.rows).flatten ∧
      t.num_rows = 2) :=
  ⟨by decide,
    build_adds_first_then_blocks ["a"]
      [.addRow [("a", Val.int 1)], .addBlock ⟨[("a", [Val.int 10])]⟩]
      (by decide) (by decide) (by decide) (by decide) (by decide)⟩

/-- C2 amended: for every interleaved call sequence whose added items are
non-empty mappings over one common duplicate-free schema (with convertible
values) and whose merged blocks are well-formed tables over that schema,
the builder's `num_rows()` equals the number of `add` calls plus the row
counts of all merged blocks, and the built block's row count equals the
builder's `num_rows()` at `build()` time. (Per the counterexample, an
empty mapping breaks the second equality: it raises `num_rows()` but adds
no cells.) -/
theorem built_rowcount_matches_builder (ks : List String) (ops : List Op)
    (hnd : ks.Nodup) (hks : ks ≠ [])
    (hrows : ∀ r ∈ opsRows ops, r.map Prod.fst = ks)
    (hsupp : ∀ r ∈ opsRows ops, ∀ kv ∈ r, kv.2.supported = true)
    (hblocks : ∀ u ∈ opsBlocks ops, u.names = ks ∧ u.wf = true) :
    ∃ bb t, ArrowBlockBuilder.runOps ArrowBlockBuilder.empty ops = .ok bb ∧
      bb.build = .ok t ∧
      bb.num_rows = (opsRows ops).length + ((opsBlocks ops).map Table.num_rows).sum ∧
      t.num_rows = bb.num_rows := by
  obtain ⟨t, h1, _, h3, _⟩ := arrow_build_spec ks ops hnd hks hrows hsupp hblocks
  refine ⟨_, t, runOps_eq_applyOps ops _, h1, ?_, ?_⟩
  · rw [applyOps_spec ops ArrowBlockBuilder.empty]
    simp [ArrowBlockBuilder.empty]
  · rw [applyOps_spec ops ArrowBlockBuilder.empty, h3]
    simp [ArrowBlockBuilder.empty]

/-- C2 amended witness: two adds of one-key mappings and one merged
two-row block give `num_rows() = 4` and a built block with 4 rows. -/
theorem built_rowcount_matches_builder_witness :
    (["b"] : List String).Nodup ∧
    (∃ bb t, ArrowBlockBuilder.runOps ArrowBlockBuilder.empty
        [.addBlock ⟨[("b", [Val.int 7, Val.int 8])]⟩, .addRow [("b", Val.int 5)],
          .addRow [("b", Val.int 6)]] = .ok bb ∧
      bb.build = .ok t ∧
      bb.num_rows = 2 + ((opsBlocks [Op.addBlock ⟨[("b", [Val.int 7, Val.int 8])]⟩,
        .addRow [("b", Val.int 5)], .addRow [("b", Val.int 6)]]).map Table.num_rows).sum ∧
      t.num_rows = bb.num_rows) :=
  ⟨by decide,
    built_rowcount_matches_builder ["b"]
      [.addBlock ⟨[("b", [Val.int 7, Val.int 8])]⟩, .addRow [("b", Val.int 5)],
        .addRow [("b", Val.int 6)]]
      (by decide) (by decide) (by decide) (by decide) (by decide)⟩

/-- C6: building a columnar block from a sequence of mapping-shaped rows
with one consistent (non-empty, duplicate-free) schema and enumerating it
with `iter_rows()` yields exactly one row view per row index 0..N-1 in
order, and each view's mapping form reproduces the corresponding input
row. -/
theorem iter_rows_roundtrip (ks : List String) (rs : List Row)
    (hnd : ks.Nodup) (hks : ks ≠ [])
    (hrows : ∀ r ∈ rs, r.map Prod.fst = ks)
    (hsupp : ∀ r ∈ rs, ∀ kv ∈ r, kv.2.supported = true) :
    ∃ bb t, ArrowBlockBuilder.runOps ArrowBlockBuilder.empty (rs.map Op.addRow) = .ok bb ∧
      bb.build = .ok t ∧
      (ArrowBlockAccessor.iter_rows t).length = rs.length ∧
      ∀ i, i < rs.length →
        ((ArrowBlockAccessor.iter_rows t).getD i ⟨⟨[]⟩⟩).as_pydict = rs.getD i [] := by
  obtain ⟨t, h1, h2, h3, hwf⟩ :=
    arrow_build_spec ks (rs.map Op.addRow) hnd hks
      (by rw [opsRows_map_addRow]; exact hrows)
      (by rw [opsRows_map_addRow]; exact hsupp)
      (by rw [opsBlocks_map_addRow]; simp)
  rw [opsRows_map_addRow, opsBlocks_map_addRow] at h2 h3
  simp only [List.map_nil, List.flatten_nil, List.append_nil, List.length_nil,
    List.sum_nil, Nat.add_zero] at h2 h3
  refine ⟨_, t, runOps_eq_applyOps _ _, h1, ?_, ?_⟩
  · simp [ArrowBlockAccessor.iter_rows, h3]
  · intro i hi
    have hin : i < t.num_rows := by rw [h3]; exact hi
    have hiter : (ArrowBlockAccessor.iter_rows t).getD i ⟨⟨[]⟩⟩ = ⟨t.slice i 1⟩ := by
      unfold ArrowBlockAccessor.iter_rows
      rw [List.getD_eq_getElem _ _ (by simpa using hin), List.getElem_map, List.getElem_range]
    rw [hiter, as_pydict_slice t i hwf hin]
    have hrowAt : t.rowAt i = rs[i] := by
      have := congrArg (fun l => l.getD i ([] : Row)) h2
      simp only [Table.rows] at this
      rw [List.getD_eq_getElem _ _ (by simpa [Table.rows] using hin),
        List.getD_eq_getElem _ _ hi, List.getElem_map, List.getElem_range] at this
      exact this
    rw [hrowAt, List.getD_eq_getElem _ _ hi]

/-- C6 witness: two rows over schema ["a", "b"] round-trip through
`iter_rows` and `as_pydict`. -/
theorem iter_rows_roundtrip_witness :
    (["a", "b"] : List String).Nodup ∧
    (∃ bb t, ArrowBlockBuilder.runOps ArrowBlockBuilder.empty
        ([[("a", Val.int 1), ("b", Val.int 2)],
          [("a", Val.int 3), ("b", Val.int 4)]].map Op.addRow) = .ok bb ∧
      bb.build = .ok t ∧
      (ArrowBlockAccessor.iter_rows t).length = 2 ∧
      ∀ i, i < 2 →
        ((ArrowBlockAccessor.iter_rows t).getD i ⟨⟨[]⟩⟩).as_pydict =
          [[("a", Val.int 1), ("b", Val.int 2)],
            [("a", Val.int 3), ("b", Val.int 4)]].getD i []) :=
  ⟨by decide,
    iter_rows_roundtrip ["a", "b"]
      [[("a", Val.int 1), ("b", Val.int 2)], [("a", Val.int 3), ("b", Val.int 4)]]
      (by decide) (by decide) (by decide) (by decide)⟩

/-- C9: two row views over columnar blocks (with duplicate-free column
names) compare equal exactly when their mapping forms are equal as
key-to-value maps — value equality over the derived mappings, independent
of column order and of object identity. -/
theorem arrow_row_eq_iff_mapping_eq (r1 r2 : ArrowRow)
    (h1 : r1.row.names.Nodup) (h2 : r2.row.names.Nodup) :
    ArrowRow.eq r1 r2 = true ↔
      ∀ k, List.lookup k r1.as_pydict = List.lookup k r2.as_pydict := by
  have ha : r1.as_pydict.map Prod.fst = r1.row.names := by
    simp [ArrowRow.as_pydict, Table.names, List.map_map, Function.comp]
  have hb : r2.as_pydict.map Prod.fst = r2.row.names := by
    simp [ArrowRow.as_pydict, Table.names, List.map_map, Function.comp]
  exact pydictEq_iff r1.as_pydict r2.as_pydict (ha ▸ h1) (hb ▸ h2)

/-- C9 witness: two one-row slices with the same cells in different column
orders have distinct representations but equal mapping forms, and the
code's equality accepts them. -/
theorem arrow_row_eq_iff_mapping_eq_witness :
    (ArrowRow.mk ⟨[("a", [Val.int 1]), ("b", [Val.int 2])]⟩).row.names.Nodup ∧
    (ArrowRow.mk ⟨[("b", [Val.int 2]), ("a", [Val.int 1])]⟩).row.names.Nodup ∧
    (ArrowRow.eq ⟨⟨[("a", [Val.int 1]), ("b", [Val.int 2])]⟩⟩
        ⟨⟨[("b", [Val.int 2]), ("a", [Val.int 1])]⟩⟩ = true ↔
      ∀ k, List.lookup k (ArrowRow.as_pydict ⟨⟨[("a", [Val.int 1]), ("b", [Val.int 2])]⟩⟩) =
        List.lookup k (ArrowRow.as_pydict ⟨⟨[("b", [Val.int 2]), ("a", [Val.int 1])]⟩⟩)) :=
  ⟨by decide, by decide,
    arrow_row_eq_iff_mapping_eq ⟨⟨[("a", [Val.int 1]), ("b", [Val.int 2])]⟩⟩
      ⟨⟨[("b", [Val.int 2]), ("a", [Val.int 1])]⟩⟩ (by decide) (by decide)⟩

end ArrowBlock
